import Mathlib

/-!
Verification of `command/ca/provisioner/provisioner.go`: the backend
selector `newCRUDClient`, the list-removal helper `removeElements`, and
the Nebula trust-root loader `readNebulaRoots`, shallowly embedded in
Lean.  External collaborators (the file system, the configuration
loader, the Nebula PEM splitter and marshaller) are modelled at their
boundary as data carried by the inputs.
-/

namespace StepCLI

/-! ## List Delta Merger: `removeElements` -/

/-- The inner scan of `removeElements`: `for i, elem := range list
\x7b if elem == rem \x7b ... break \x7d \x7d` finds the index of the first
element equal to `rem`, if any. -/
def findMatch (rem : String) : List String → Option Nat
  | [] => none
  | elem :: rest =>
    if elem == rem then some 0
    else (findMatch rem rest).map (· + 1)

/-- One iteration of the outer loop of `removeElements`: locate the first
occurrence of `rem`; when found at index `i`, execute
`list[i] = list[len(list)-1]` followed by `list = list[:len(list)-1]`
(swap with the last element, then truncate). -/
def removeOne (list : List String) (rem : String) : List String :=
  match findMatch rem list with
  | none => list
  | some i => (list.set i (list.getLastD "")).dropLast

/-- `removeElements(list, rems []string) []string` from
`provisioner.go`: for each `rem` in `rems`, remove at most one matching
occurrence from `list` by swap-with-last-and-truncate. -/
def removeElements (list rems : List String) : List String :=
  if list.length = 0 then list
  else rems.foldl removeOne list

/-- The number of entries of `rems` that find a match while
`removeElements` processes them in order (each match consumes one
occurrence from the evolving list). -/
def matchedCount : List String → List String → Nat
  | _, [] => 0
  | list, rem :: rems =>
    (if rem ∈ list then 1 else 0) + matchedCount (removeOne list rem) rems

/-! ## Nebula trust-root loader: `readNebulaRoots` -/

/-- A Nebula certificate's `Details`, restricted to the attribute the
loader consults. -/
structure NebulaCertificateDetails where
  IsCA : Bool
deriving DecidableEq

deriving instance DecidableEq for Except

/-- A parsed Nebula certificate, modelled at the boundary used by
`readNebulaRoots`: its `Details.IsCA` attribute and the outcome of its
`MarshalToPEM` method (the PEM bytes, or the marshalling error). -/
structure NebulaCertificate where
  Details : NebulaCertificateDetails
  MarshalToPEM : Except String (List Nat)
deriving DecidableEq

/-- One PEM block of a trust-chain buffer, as seen through the external
splitter `nebula.UnmarshalNebulaCertificateFromPEM`: either it decodes
to a certificate, or decoding fails with an error. -/
abbrev PEMBlock := Except String NebulaCertificate

/-- The errors `readNebulaRoots` can produce, mirroring the `error`
values built in the source: the raw read error, a decode error wrapped
with `"error reading %s"` (the path), the
`"error reading %s: no CA certificates found"` error, and a marshalling
error wrapped with `"error marshaling certificate"`. -/
inductive NebulaRootsError where
  | readFile (cause : String)
  | parseError (path : String) (cause : String)
  | noCA (path : String)
  | marshal (cause : String)
deriving DecidableEq

/-- The loop `for len(b) > 0 \x7b crt, b, err =
nebula.UnmarshalNebulaCertificateFromPEM(b); ... \x7d` of
`readNebulaRoots`: decode block after block, abort on the first decode
failure (wrapping the path), and accumulate exactly the certificates
whose `Details.IsCA` is true, in encounter order. -/
def readNebulaCerts (rootFile : String) :
    List PEMBlock → Except NebulaRootsError (List NebulaCertificate)
  | [] => .ok []
  | .error e :: _ => .error (.parseError rootFile e)
  | .ok crt :: rest =>
    match readNebulaCerts rootFile rest with
    | .error e => .error e
    | .ok certs => .ok (if crt.Details.IsCA then crt :: certs else certs)

/-- The final loop of `readNebulaRoots`: marshal each retained
certificate back to PEM, aborting on the first failure with the wrapped
marshalling error. -/
def marshalRoots : List NebulaCertificate → Except NebulaRootsError (List (List Nat))
  | [] => .ok []
  | crt :: certs =>
    match crt.MarshalToPEM with
    | .error e => .error (.marshal e)
    | .ok b =>
      match marshalRoots certs with
      | .error e => .error e
      | .ok bs => .ok (b :: bs)

/-- `readNebulaRoots(rootFile string) ([][]byte, error)` from
`provisioner.go`.  `fs` models `utils.ReadFile`: it maps a path to the
file's contents (a list of PEM blocks as the external splitter sees
them) or a read error.  On success the buffer is decoded completely,
filtered to CA certificates, rejected if that leaves nothing, and
re-marshalled to PEM. -/
def readNebulaRoots (fs : String → Except String (List PEMBlock))
    (rootFile : String) : Except NebulaRootsError (List (List Nat)) :=
  match fs rootFile with
  | .error e => .error (.readFile e)
  | .ok b =>
    match readNebulaCerts rootFile b with
    | .error e => .error e
    | .ok certs =>
      if certs.length = 0 then .error (.noCA rootFile)
      else marshalRoots certs

/-! ## Backend selector: `newCRUDClient` -/

/-- The authority section of the configuration file, restricted to the
two attributes `newCRUDClient` consults: `EnableAdmin` and the static
`Provisioners` list (only its length matters; entries are opaque). -/
structure AuthorityConfig where
  EnableAdmin : Bool
  Provisioners : List String
deriving DecidableEq

/-- The loaded configuration (`config.LoadConfiguration` result). -/
structure Config where
  AuthorityConfig : AuthorityConfig
deriving DecidableEq

/-- Outcome of `os.Stat(configFile)`, split exactly as the `switch` in
`newCRUDClient` splits it: `errors.Is(err, os.ErrNotExist)`,
`err == nil`, or any other error. -/
inductive StatResult where
  | notExist
  | ok
  | otherError (cause : String)
deriving DecidableEq

/-- The two concrete provisioner stores hidden behind the `crudClient`
interface: the remote-admin-API-backed client and the file-backed
client bound to a configuration and its path. -/
inductive CrudClient where
  | adminClient
  | fileClient (cfg : Config) (path : String)
deriving DecidableEq

/-- The errors `newCRUDClient` can produce: the wrapped
`"error loading configuration: %w"`, the `enableAdmin`/provisioners
conflict, and `errs.FileError(err, configFile)`. -/
inductive CrudClientError where
  | loadConfig (cause : String)
  | conflict
  | fileError (cause : String) (path : String)
deriving DecidableEq

/-- Modelled from the spec: `cautils.NewAdminClient` is code of this
repository outside the excerpt.  The spec treats its invocation as
"instantiate and return the remote-API-backed store (constructed from
the admin connection context). Terminal success state." -/
def NewAdminClient : Except CrudClientError CrudClient := .ok .adminClient

/-- Modelled from the spec: `newAdminAPIDisabledClient` is code of this
repository outside the excerpt.  Per the spec it must "instantiate and
return a file-backed store bound to this configuration and its path". -/
def newAdminAPIDisabledClient (cfg : Config) (configFile : String) :
    Except CrudClientError CrudClient :=
  .ok (.fileClient cfg configFile)

/-- The environment `newCRUDClient` runs in: the result of
`os.Stat(configFile)`, the result `config.LoadConfiguration(configFile)`
would produce, and the result `cautils.NewAdminClient(cliCtx)` would
produce (kept abstract so that independence from the admin connection
can be stated). -/
structure Env where
  stat : StatResult
  loadConfiguration : Except String Config
  newAdminClient : Except CrudClientError CrudClient

/-- `newCRUDClient(cliCtx *cli.Context, configFile string)` from
`provisioner.go`: stat the file; if absent use the admin client; if
present load the configuration (wrapping load failures), reject a
configuration that both enables the admin API and carries a non-empty
static provisioner list, otherwise pick the admin client or the
file-backed client; any other stat failure becomes a file error
carrying the path. -/
def newCRUDClient (env : Env) (configFile : String) :
    Except CrudClientError CrudClient :=
  match env.stat with
  | .notExist => env.newAdminClient
  | .ok =>
    match env.loadConfiguration with
    | .error e => .error (.loadConfig e)
    | .ok config =>
      if config.AuthorityConfig.EnableAdmin then
        if config.AuthorityConfig.Provisioners.length > 0 then
          .error .conflict
        else
          env.newAdminClient
      else
        newAdminAPIDisabledClient config configFile
  | .otherError e => .error (.fileError e configFile)

end StepCLI

namespace StepCLI

/-! ## Lemmas about `removeOne` and `removeElements` -/

theorem findMatch_eq_none (rem : String) (l : List String) (h : rem ∉ l) :
    findMatch rem l = none := by
  induction l with
  | nil => rfl
  | cons x xs ih =>
    have hx : ¬(x == rem) := by
      simp only [beq_iff_eq]
      intro hxr
      exact h (hxr ▸ List.mem_cons_self x xs)
    have hxs : rem ∉ xs := fun hm => h (List.mem_cons_of_mem x hm)
    simp [findMatch, hx, ih hxs]

theorem findMatch_first (rem : String) (l1 l2 : List String) (h : rem ∉ l1) :
    findMatch rem (l1 ++ rem :: l2) = some l1.length := by
  induction l1 with
  | nil => simp [findMatch]
  | cons x xs ih =>
    have hx : ¬(x == rem) := by
      simp only [beq_iff_eq]
      intro hxr
      exact h (hxr ▸ List.mem_cons_self x xs)
    have hxs : rem ∉ xs := fun hm => h (List.mem_cons_of_mem x hm)
    simp [findMatch, hx, ih hxs]

theorem removeOne_of_not_mem {l : List String} {rem : String} (h : rem ∉ l) :
    removeOne l rem = l := by
  simp [removeOne, findMatch_eq_none rem l h]

theorem set_at_append (l1 l2 : List String) (x v : String) :
    (l1 ++ x :: l2).set l1.length v = l1 ++ v :: l2 := by
  induction l1 with
  | nil => rfl
  | cons y ys ih => simp [List.set, ih]

theorem removeOne_last {l1 : List String} {rem : String} (h : rem ∉ l1) :
    removeOne (l1 ++ [rem]) rem = l1 := by
  unfold removeOne
  rw [show l1 ++ [rem] = l1 ++ rem :: [] from rfl, findMatch_first rem l1 [] h]
  simp only [List.getLastD_concat]
  rw [set_at_append l1 [] rem rem]
  exact List.dropLast_concat

theorem removeOne_mid {l1 l2 : List String} {rem z : String} (h : rem ∉ l1) :
    removeOne (l1 ++ rem :: (l2 ++ [z])) rem = l1 ++ z :: l2 := by
  unfold removeOne
  rw [findMatch_first rem l1 (l2 ++ [z]) h]
  have hlast : (l1 ++ rem :: (l2 ++ [z])).getLastD "" = z := by
    rw [show l1 ++ rem :: (l2 ++ [z]) = (l1 ++ rem :: l2) ++ [z] by simp]
    exact List.getLastD_concat _ _ _
  show ((l1 ++ rem :: (l2 ++ [z])).set l1.length
      ((l1 ++ rem :: (l2 ++ [z])).getLastD "")).dropLast = l1 ++ z :: l2
  rw [hlast, set_at_append l1 (l2 ++ [z]) rem z]
  rw [show l1 ++ z :: (l2 ++ [z]) = (l1 ++ z :: l2) ++ [z] by simp]
  exact List.dropLast_concat

theorem first_split {l : List String} {rem : String} (h : rem ∈ l) :
    ∃ l1 l2, l = l1 ++ rem :: l2 ∧ rem ∉ l1 := by
  induction l with
  | nil => cases h
  | cons x xs ih =>
    by_cases hx : x = rem
    · exact ⟨[], xs, by simp [hx], by simp⟩
    · have hm : rem ∈ xs := by
        cases h with
        | head => exact absurd rfl hx
        | tail _ hm => exact hm
      obtain ⟨l1, l2, heq, hnm⟩ := ih hm
      exact ⟨x :: l1, l2, by simp [heq], by
        intro hc
        cases hc with
        | head => exact hx rfl
        | tail _ hc => exact hnm hc⟩

theorem removeOne_perm (l : List String) (rem : String) :
    List.Perm (removeOne l rem) (l.erase rem) := by
  by_cases h : rem ∈ l
  · obtain ⟨l1, l2, heq, hnm⟩ := first_split h
    subst heq
    rw [List.erase_append_right _ hnm, List.erase_cons_head]
    rcases List.eq_nil_or_concat l2 with h2 | ⟨L, z, h2⟩
    · subst h2
      rw [removeOne_last hnm]
      simp
    · subst h2
      rw [show List.concat L z = L ++ [z] from List.concat_eq_append L z]
      rw [removeOne_mid hnm]
      exact (List.perm_append_singleton z L).symm.append_left l1
  · rw [removeOne_of_not_mem h, List.erase_of_not_mem h]

theorem removeOne_count (l : List String) (rem x : String) :
    (removeOne l rem).count x = l.count x - if rem == x then 1 else 0 := by
  rw [(removeOne_perm l rem).count_eq]
  by_cases h : x = rem
  · subst h
    simp [List.count_erase_self]
  · have hne : ¬(rem == x) = true := by
      simp only [beq_iff_eq]
      exact fun e => h e.symm
    simp [hne, List.count_erase_of_ne h]

theorem removeOne_length (l : List String) (rem : String) :
    (removeOne l rem).length = l.length - if rem ∈ l then 1 else 0 := by
  rw [(removeOne_perm l rem).length_eq]
  by_cases h : rem ∈ l
  · simp [h, List.length_erase_of_mem h]
  · simp [h, List.erase_of_not_mem h]

theorem foldl_removeOne_nil (rems : List String) :
    rems.foldl removeOne [] = [] := by
  induction rems with
  | nil => rfl
  | cons r rs ih => simpa [removeOne, findMatch] using ih

theorem removeElements_eq_foldl (l rems : List String) :
    removeElements l rems = rems.foldl removeOne l := by
  unfold removeElements
  by_cases h : l.length = 0
  · rw [if_pos h, List.length_eq_zero.mp h, foldl_removeOne_nil]
  · rw [if_neg h]

theorem foldl_removeOne_count (rems l : List String) (x : String) :
    (rems.foldl removeOne l).count x = l.count x - rems.count x := by
  induction rems generalizing l with
  | nil => simp
  | cons r rs ih =>
    rw [List.foldl_cons, ih (removeOne l r), removeOne_count, List.count_cons,
      Nat.sub_sub, Nat.add_comm]

theorem foldl_removeOne_length (rems l : List String) :
    (rems.foldl removeOne l).length = l.length - matchedCount l rems := by
  induction rems generalizing l with
  | nil => simp [matchedCount]
  | cons r rs ih =>
    rw [List.foldl_cons, ih (removeOne l r), removeOne_length, matchedCount,
      Nat.sub_sub]

theorem matchedCount_le (rems l : List String) :
    matchedCount l rems ≤ l.length := by
  induction rems generalizing l with
  | nil => simp [matchedCount]
  | cons r rs ih =>
    rw [matchedCount]
    have h2 := ih (removeOne l r)
    rw [removeOne_length] at h2
    by_cases h : r ∈ l
    · have hpos : 0 < l.length := List.length_pos.mpr (List.ne_nil_of_mem h)
      simp only [h, if_pos] at h2 ⊢
      omega
    · simp only [h, if_neg, if_false] at h2 ⊢
      omega

/-! ## Claim theorems for `removeElements` -/

/-- C3: for every pair of string lists `current` and `toRemove`,
`removeElements` removes for each entry of `toRemove` at most one
matching occurrence (by exact equality): the count of every string in
the result is the count in `current` truncated-minus the count in
`toRemove`; consequently any string whose occurrences in `current` are
all matched by entries of `toRemove` is absent from the result; and the
result's length is `current`'s length minus the number of matched
removals. -/
theorem removeElements_removal_spec (current toRemove : List String) :
    (∀ x, (removeElements current toRemove).count x
        = current.count x - toRemove.count x)
    ∧ (∀ x, current.count x ≤ toRemove.count x →
        x ∉ removeElements current toRemove)
    ∧ matchedCount current toRemove ≤ current.length
    ∧ (removeElements current toRemove).length
        = current.length - matchedCount current toRemove := by
  refine ⟨?_, ?_, matchedCount_le _ _, ?_⟩
  · intro x
    rw [removeElements_eq_foldl, foldl_removeOne_count]
  · intro x h
    apply List.count_eq_zero.mp
    rw [removeElements_eq_foldl, foldl_removeOne_count]
    omega
  · rw [removeElements_eq_foldl, foldl_removeOne_length]

/-- Witness for C3 at a concrete input: `"b"` occurs once in the
current list and once in the removal list, so it is gone from the
result. -/
theorem removeElements_removal_spec_witness :
    "b" ∉ removeElements ["a", "b"] ["b", "c"] :=
  (removeElements_removal_spec ["a", "b"] ["b", "c"]).2.1 "b" (by decide)

/-- C8: `removeElements` applied to an empty current list returns an
empty result, whatever the removal list is. -/
theorem removeElements_nil_current (rems : List String) :
    removeElements [] rems = [] := rfl

/-- C9: each identifier in the removal list removes the
earliest-index matching occurrence of the list as it stands at that
point — the matched slot receives the current last element and the list
is truncated (so for a match at the end the list just shrinks) — and
removal entries are processed left to right: processing `rem :: rs`
equals processing `rs` on the list with `rem`'s removal already
applied. -/
theorem removeElements_processes_in_order (rem z : String)
    (l1 l2 rs : List String) :
    (rem ∉ l1 → removeOne (l1 ++ [rem]) rem = l1)
    ∧ (rem ∉ l1 → removeOne (l1 ++ rem :: (l2 ++ [z])) rem = l1 ++ z :: l2)
    ∧ (∀ l : List String,
        removeElements l (rem :: rs) = removeElements (removeOne l rem) rs) := by
  refine ⟨fun h => removeOne_last h, fun h => removeOne_mid h, fun l => ?_⟩
  rw [removeElements_eq_foldl, removeElements_eq_foldl, List.foldl_cons]

/-- Witness for C9 at a concrete input: removing `"b"` from
`["a", "b", "c", "d"]` overwrites the earliest match with the last
element `"d"` and truncates. -/
theorem removeElements_processes_in_order_witness :
    removeOne (["a"] ++ "b" :: (["c"] ++ ["d"])) "b" = ["a"] ++ "d" :: ["c"] :=
  (removeElements_processes_in_order "b" "d" ["a"] ["c"] ["x"]).2.1 (by decide)

end StepCLI

namespace StepCLI

/-! ## Lemmas about `readNebulaCerts` and `marshalRoots` -/

theorem readNebulaCerts_map_ok (path : String) (certs : List NebulaCertificate) :
    readNebulaCerts path (certs.map Except.ok)
      = .ok (certs.filter (fun c => c.Details.IsCA)) := by
  induction certs with
  | nil => rfl
  | cons c cs ih =>
    simp only [List.map_cons, readNebulaCerts, ih, List.filter_cons]

theorem readNebulaCerts_error_of_mem (path : String) (e : String)
    (blocks : List PEMBlock) (h : Except.error e ∈ blocks) :
    ∃ cause, readNebulaCerts path blocks = .error (.parseError path cause) := by
  induction blocks with
  | nil => cases h
  | cons b bs ih =>
    cases b with
    | error e' => exact ⟨e', rfl⟩
    | ok c =>
      rcases List.mem_cons.mp h with heq | hm
      · cases heq
      · obtain ⟨cause, hc⟩ := ih hm
        exact ⟨cause, by simp [readNebulaCerts, hc]⟩

theorem marshalRoots_ok (certs : List NebulaCertificate) (pems : List (List Nat))
    (h : certs.map (fun c => c.MarshalToPEM) = pems.map Except.ok) :
    marshalRoots certs = .ok pems := by
  induction certs generalizing pems with
  | nil =>
    have hp : pems = [] := by
      cases pems with
      | nil => rfl
      | cons p ps => simp at h
    subst hp
    rfl
  | cons c cs ih =>
    cases pems with
    | nil => simp at h
    | cons p ps =>
      simp only [List.map_cons, List.cons.injEq] at h
      obtain ⟨h1, h2⟩ := h
      simp [marshalRoots, h1, ih ps h2]

theorem marshalRoots_error (certs : List NebulaCertificate)
    (c : NebulaCertificate) (e : String) (hc : c ∈ certs)
    (he : c.MarshalToPEM = .error e) :
    ∃ cause, marshalRoots certs = .error (.marshal cause) := by
  induction certs with
  | nil => cases hc
  | cons c' cs ih =>
    cases hm : c'.MarshalToPEM with
    | error e' => exact ⟨e', by simp [marshalRoots, hm]⟩
    | ok b =>
      rcases List.mem_cons.mp hc with heq | hmem
      · subst heq
        rw [he] at hm
        cases hm
      · obtain ⟨cause, hmr⟩ := ih hmem
        exact ⟨cause, by simp [marshalRoots, hm, hmr]⟩

theorem mem_of_map_marshal (certs : List NebulaCertificate)
    (pems : List (List Nat))
    (h : certs.map (fun c => c.MarshalToPEM) = pems.map Except.ok) :
    ∀ b ∈ pems, ∃ c ∈ certs, c.MarshalToPEM = .ok b := by
  induction certs generalizing pems with
  | nil =>
    cases pems with
    | nil => intro b hb; cases hb
    | cons p ps => simp at h
  | cons c cs ih =>
    cases pems with
    | nil => simp at h
    | cons p ps =>
      simp only [List.map_cons, List.cons.injEq] at h
      obtain ⟨h1, h2⟩ := h
      intro b hb
      rcases List.mem_cons.mp hb with heq | hm
      · exact ⟨c, List.mem_cons_self c cs, heq ▸ h1⟩
      · obtain ⟨c', hc', hm'⟩ := ih ps h2 b hm
        exact ⟨c', List.mem_cons_of_mem c hc', hm'⟩

/-! ## Claim theorems for `readNebulaRoots` -/

/-- C2: for every trust-chain file whose buffer decodes completely (all
blocks decode; the buffer is the image of a certificate list), the
loader accumulates every decoded certificate, keeps exactly those whose
`Details.IsCA` is true in their original order, re-encodes each
survivor to PEM, and returns that ordered list; moreover every returned
blob is the PEM encoding of a CA certificate of the input. -/
theorem readNebulaRoots_filters_and_encodes
    (fs : String → Except String (List PEMBlock)) (rootFile : String)
    (certs : List NebulaCertificate) (pems : List (List Nat))
    (hfs : fs rootFile = .ok (certs.map Except.ok))
    (hpem : (certs.filter (fun c => c.Details.IsCA)).map (fun c => c.MarshalToPEM)
        = pems.map Except.ok)
    (hne : certs.filter (fun c => c.Details.IsCA) ≠ []) :
    readNebulaRoots fs rootFile = .ok pems
    ∧ ∀ b ∈ pems, ∃ c ∈ certs, c.Details.IsCA = true ∧ c.MarshalToPEM = .ok b := by
  constructor
  · have hlen : (certs.filter (fun c => c.Details.IsCA)).length ≠ 0 :=
      fun h0 => hne (List.length_eq_zero.mp h0)
    simp only [readNebulaRoots, hfs, readNebulaCerts_map_ok, hlen, if_false,
      if_neg hlen]
    exact marshalRoots_ok _ _ hpem
  · intro b hb
    obtain ⟨c, hcmem, hcm⟩ := mem_of_map_marshal _ _ hpem b hb
    have hsplit := List.mem_filter.mp hcmem
    exact ⟨c, hsplit.1, hsplit.2, hcm⟩

/-- A CA certificate whose PEM form is the byte `[1]`. -/
def exampleCA1 : NebulaCertificate := ⟨⟨true⟩, .ok [1]⟩

/-- A CA certificate whose PEM form is the byte `[2]`. -/
def exampleCA2 : NebulaCertificate := ⟨⟨true⟩, .ok [2]⟩

/-- A leaf (non-CA) certificate. -/
def exampleLeaf : NebulaCertificate := ⟨⟨false⟩, .ok [3]⟩

/-- Witness for C2 at a concrete input: a file with two CA certificates
and one leaf yields exactly the two CA PEM blobs, in order. -/
theorem readNebulaRoots_filters_and_encodes_witness :
    readNebulaRoots (fun _ => .ok [.ok exampleCA1, .ok exampleLeaf, .ok exampleCA2])
      "roots.pem" = .ok [[1], [2]] :=
  (readNebulaRoots_filters_and_encodes
    (fun _ => .ok [.ok exampleCA1, .ok exampleLeaf, .ok exampleCA2]) "roots.pem"
    [exampleCA1, exampleLeaf, exampleCA2] [[1], [2]] rfl (by decide) (by decide)).1

/-- C4: for every trust-chain file in which some PEM block fails to
decode, `readNebulaRoots` aborts with an error wrapping the file path
and the underlying cause, and returns no partial certificate list. -/
theorem readNebulaRoots_aborts_on_bad_block
    (fs : String → Except String (List PEMBlock)) (rootFile : String)
    (blocks : List PEMBlock) (e : String)
    (hfs : fs rootFile = .ok blocks) (hbad : Except.error e ∈ blocks) :
    ∃ cause, readNebulaRoots fs rootFile = .error (.parseError rootFile cause) := by
  obtain ⟨cause, hc⟩ := readNebulaCerts_error_of_mem rootFile e blocks hbad
  exact ⟨cause, by simp [readNebulaRoots, hfs, hc]⟩

/-- Witness for C4 at a concrete input: a good CA block followed by a
truncated block makes the whole load fail with a parse error naming the
path. -/
theorem readNebulaRoots_aborts_on_bad_block_witness :
    ∃ cause,
      readNebulaRoots (fun _ => .ok [.ok exampleCA1, .error "truncated"])
        "roots.pem" = .error (.parseError "roots.pem" cause) :=
  readNebulaRoots_aborts_on_bad_block
    (fun _ => .ok [.ok exampleCA1, .error "truncated"]) "roots.pem"
    [.ok exampleCA1, .error "truncated"] "truncated" rfl (by decide)

/-- C5: for every trust-chain file that decodes completely but contains
no certificate marked as a certificate authority, `readNebulaRoots`
fails with the no-CA-certificates-found error naming the file path,
never returning an empty list as a success. -/
theorem readNebulaRoots_no_ca
    (fs : String → Except String (List PEMBlock)) (rootFile : String)
    (certs : List NebulaCertificate)
    (hfs : fs rootFile = .ok (certs.map Except.ok))
    (hnoca : ∀ c ∈ certs, c.Details.IsCA = false) :
    readNebulaRoots fs rootFile = .error (.noCA rootFile) := by
  have hf : certs.filter (fun c => c.Details.IsCA) = [] :=
    List.filter_eq_nil_iff.mpr (fun c hc => by simp [hnoca c hc])
  simp [readNebulaRoots, hfs, readNebulaCerts_map_ok, hf]

/-- Witness for C5 at a concrete input: a file holding only a leaf
certificate fails with the no-CA error naming the path. -/
theorem readNebulaRoots_no_ca_witness :
    readNebulaRoots (fun _ => .ok [.ok exampleLeaf]) "roots.pem"
      = .error (.noCA "roots.pem") :=
  readNebulaRoots_no_ca (fun _ => .ok [.ok exampleLeaf]) "roots.pem"
    [exampleLeaf] rfl (by decide)

/-- C10: if re-encoding any surviving CA certificate to PEM fails, the
whole operation fails with an error wrapping the marshalling cause and
returns no partial list of PEM blobs. -/
theorem readNebulaRoots_marshal_failure
    (fs : String → Except String (List PEMBlock)) (rootFile : String)
    (certs : List NebulaCertificate) (c : NebulaCertificate) (e : String)
    (hfs : fs rootFile = .ok (certs.map Except.ok))
    (hc : c ∈ certs) (hca : c.Details.IsCA = true)
    (he : c.MarshalToPEM = .error e) :
    ∃ cause, readNebulaRoots fs rootFile = .error (.marshal cause) := by
  have hmem : c ∈ certs.filter (fun c => c.Details.IsCA) :=
    List.mem_filter.mpr ⟨hc, hca⟩
  obtain ⟨cause, hmr⟩ := marshalRoots_error _ c e hmem he
  have hlen : (certs.filter (fun c => c.Details.IsCA)).length ≠ 0 :=
    fun h0 => (List.ne_nil_of_mem hmem) (List.length_eq_zero.mp h0)
  exact ⟨cause, by
    simp only [readNebulaRoots, hfs, readNebulaCerts_map_ok, if_neg hlen]
    exact hmr⟩

/-- A CA certificate whose `MarshalToPEM` fails. -/
def exampleBadCA : NebulaCertificate := ⟨⟨true⟩, .error "oops"⟩

/-- Witness for C10 at a concrete input: one CA marshals fine, the
second fails, so the whole load fails with a marshalling error. -/
theorem readNebulaRoots_marshal_failure_witness :
    ∃ cause,
      readNebulaRoots (fun _ => .ok [.ok exampleCA1, .ok exampleBadCA])
        "roots.pem" = .error (.marshal cause) :=
  readNebulaRoots_marshal_failure
    (fun _ => .ok [.ok exampleCA1, .ok exampleBadCA]) "roots.pem"
    [exampleCA1, exampleBadCA] exampleBadCA "oops" rfl (by decide) rfl rfl

/-! ## Claim theorems for `newCRUDClient` -/

/-- C1: for every configuration that loads successfully with
`EnableAdmin` true and a non-empty static provisioner list,
`newCRUDClient` fails with the configuration-conflict error — and it
does so whatever result the admin-connection constructor would produce,
so the remote admin connection is never consulted. -/
theorem newCRUDClient_conflict
    (ac : Except CrudClientError CrudClient) (load : Except String Config)
    (cfg : Config) (configFile : String)
    (hload : load = .ok cfg)
    (hadmin : cfg.AuthorityConfig.EnableAdmin = true)
    (hprov : cfg.AuthorityConfig.Provisioners ≠ []) :
    newCRUDClient ⟨.ok, load, ac⟩ configFile = .error .conflict := by
  subst hload
  have hlen : cfg.AuthorityConfig.Provisioners.length > 0 :=
    List.length_pos.mpr hprov
  simp [newCRUDClient, hadmin, hlen]

/-- Witness for C1 at a concrete input: `enableAdmin` true with one
static provisioner is rejected with the conflict error. -/
theorem newCRUDClient_conflict_witness :
    newCRUDClient ⟨.ok, .ok ⟨⟨true, ["p"]⟩⟩, .ok .adminClient⟩ "ca.json"
      = .error .conflict :=
  newCRUDClient_conflict (.ok .adminClient) (.ok ⟨⟨true, ["p"]⟩⟩)
    ⟨⟨true, ["p"]⟩⟩ "ca.json" rfl rfl (by simp)

/-- C6: `newCRUDClient` returns the remote-API-backed store when the
configuration file is absent; returns the remote-API-backed store when
the file loads with `EnableAdmin` true and an empty provisioner list;
and returns a file-backed store bound to the loaded configuration and
its path when `EnableAdmin` is false. -/
theorem newCRUDClient_selects_backend (load : Except String Config)
    (cfg : Config) (configFile : String) :
    (newCRUDClient ⟨.notExist, load, NewAdminClient⟩ configFile = .ok .adminClient)
    ∧ (load = .ok cfg → cfg.AuthorityConfig.EnableAdmin = true →
        cfg.AuthorityConfig.Provisioners = [] →
        newCRUDClient ⟨.ok, load, NewAdminClient⟩ configFile = .ok .adminClient)
    ∧ (load = .ok cfg → cfg.AuthorityConfig.EnableAdmin = false →
        newCRUDClient ⟨.ok, load, NewAdminClient⟩ configFile
          = .ok (.fileClient cfg configFile)) := by
  refine ⟨rfl, fun hl ha hp => ?_, fun hl ha => ?_⟩
  · subst hl
    simp [newCRUDClient, ha, hp, NewAdminClient]
  · subst hl
    simp [newCRUDClient, ha, newAdminAPIDisabledClient]

/-- Witness for C6 at a concrete input: with the admin API disabled the
file-backed store bound to this configuration and path comes back. -/
theorem newCRUDClient_selects_backend_witness :
    newCRUDClient ⟨.ok, .ok ⟨⟨false, []⟩⟩, NewAdminClient⟩ "ca.json"
      = .ok (.fileClient ⟨⟨false, []⟩⟩ "ca.json") :=
  (newCRUDClient_selects_backend (.ok ⟨⟨false, []⟩⟩) ⟨⟨false, []⟩⟩ "ca.json").2.2
    rfl rfl

/-- C7: in `newCRUDClient`, a file that exists but fails to parse
produces the wrapped configuration-load error carrying the cause, and a
stat failure other than non-existence produces the wrapped file-access
error carrying the path; in both cases no store is returned. -/
theorem newCRUDClient_load_and_stat_errors
    (ac : Except CrudClientError CrudClient) (load : Except String Config)
    (e : String) (configFile : String) :
    (load = .error e →
      newCRUDClient ⟨.ok, load, ac⟩ configFile = .error (.loadConfig e))
    ∧ newCRUDClient ⟨.otherError e, load, ac⟩ configFile
        = .error (.fileError e configFile) := by
  refine ⟨fun hl => ?_, rfl⟩
  subst hl
  rfl

/-- Witness for C7 at a concrete input: a malformed configuration file
yields the wrapped load error. -/
theorem newCRUDClient_load_and_stat_errors_witness :
    newCRUDClient ⟨.ok, .error "bad json", .ok .adminClient⟩ "ca.json"
      = .error (.loadConfig "bad json") :=
  (newCRUDClient_load_and_stat_errors (.ok .adminClient) (.error "bad json")
    "bad json" "ca.json").1 rfl

end StepCLI
